import Mathlib

/-!
Shallow embedding of the yggtray peer discovery, testing and configuration
merge engine (PeerManager / PeerTestRunnable / PeerDiscoveryDialog), together
with theorems checking the natural language specification against it.

Strings are modelled as `List Char` (the code uses QString, a sequence of
characters), machine `int` as `Int`, and the fallible external world
(resource extraction, temporary files, the helper subprocess, the ping
subprocess) as explicit environment records.  `std::sort` is modelled as a
sort with respect to the source comparator; the properties proved about the
sorted output hold for every output `std::sort` may legally produce
(a permutation of the input that is sorted for the comparator).
-/

/-- PeerData from PeerManager.h: host string, latency in ms (-1 = untested),
validity flag. -/
structure PeerData where
  host : List Char
  latency : Int := -1
  isValid : Bool := false
deriving DecidableEq, Repr

/-- The comparator lambda passed to std::sort in PeerManager::updateConfig:
valid pairs compare by latency, otherwise valid-before-invalid
(`a.isValid > b.isValid`). -/
def peerLt (a b : PeerData) : Bool :=
  if a.isValid && b.isValid then decide (a.latency < b.latency)
  else a.isValid && !b.isValid

/-- The non-strict order induced by the comparator: `a` may precede `b`
exactly when the comparator does not demand `b` before `a`. -/
def peerLE (a b : PeerData) : Prop := peerLt b a = false

instance : DecidableRel peerLE := fun _ _ => instDecidableEqBool _ _

instance : IsTotal PeerData peerLE := by
  constructor
  intro a b
  unfold peerLE peerLt
  by_cases ha : a.isValid <;> by_cases hb : b.isValid <;> simp [ha, hb] <;> omega

instance : IsTrans PeerData peerLE := by
  constructor
  intro a b c hab hbc
  unfold peerLE peerLt at *
  by_cases ha : a.isValid <;> by_cases hb : b.isValid <;> by_cases hc : c.isValid <;>
    simp [ha, hb, hc] at * <;> omega

/-- Model of the `std::sort(sortedPeers.begin(), sortedPeers.end(), cmp)`
call in PeerManager::updateConfig: a permutation of the input sorted with
respect to the comparator. -/
def sortPeers (l : List PeerData) : List PeerData := List.insertionSort peerLE l

/-- The lines written to the peer transfer file by PeerManager::updateConfig:
first the valid peers of the sorted selection; if none is valid the stream is
rewound and all sorted peers are written instead. -/
def transferLines (selected : List PeerData) : List (List Char) :=
  let sorted := sortPeers selected
  let valids := sorted.filter (fun p => p.isValid)
  if valids.isEmpty then sorted.map (fun p => p.host) else valids.map (fun p => p.host)

/-- Digit characters of a natural number, most significant first (fuel-driven
so that it evaluates by `decide`; the fuel `n + 1` always suffices since the
digit count of `n` is at most `n + 1`). -/
def natToStrAux : Nat → Nat → List Char
  | 0, _ => []
  | fuel + 1, n =>
    if n < 10 then [Nat.digitChar n]
    else natToStrAux fuel (n / 10) ++ [Nat.digitChar (n % 10)]

/-- Decimal representation of a natural number, as QString::number yields. -/
def natToStr (n : Nat) : List Char := natToStrAux (n + 1) n

/-- Decimal representation of an int, as QString::number yields. -/
def intToStr (i : Int) : List Char :=
  if i < 0 then '-' :: natToStr i.natAbs else natToStr i.toNat

/-- Does `needle` start `hay`? (helper for substring containment). -/
def startsWithB : List Char → List Char → Bool
  | [], _ => true
  | _ :: _, [] => false
  | a :: as, b :: bs => a = b && startsWithB as bs

/-- QString::contains(substring): `needle` occurs contiguously in `hay`. -/
def hasSub (needle : List Char) : List Char → Bool
  | [] => startsWithB needle []
  | c :: cs => startsWithB needle (c :: cs) || hasSub needle cs

/-- QString::trimmed: whitespace stripped from both ends. -/
def trimChars (l : List Char) : List Char :=
  ((l.dropWhile Char.isWhitespace).reverse.dropWhile Char.isWhitespace).reverse

/-- The success marker string the update script prints. -/
def successMarker : List Char := "updated successfully".data

/-- Captured observable behaviour of one pkexec helper invocation in
PeerManager::updateConfig: whether waitForFinished(SCRIPT_TIMEOUT_MS)
returned in time, the exit code, and the captured output channels. -/
structure ScriptRun where
  finishedInTime : Bool := true
  exitCode : Int := 0
  stdOut : List Char := []
  stdErr : List Char := []
deriving DecidableEq, Repr

/-- Outcome of the config merge as surfaced to the caller: success, or a
failure carrying the reported error message. -/
inductive MergeResult where
  | success : MergeResult
  | failure (msg : List Char) : MergeResult
deriving DecidableEq, Repr

/-- The error message built for a failing helper exit in
PeerManager::updateConfig: the exit code, then the trimmed stderr if stderr
is non-empty, else the trimmed stdout if stdout is non-empty. -/
def scriptFailMsg (r : ScriptRun) : List Char :=
  "Update script failed with exit code ".data ++ intToStr r.exitCode ++
    (if r.stdErr ≠ [] then ": ".data ++ trimChars r.stdErr
     else if r.stdOut ≠ [] then ": ".data ++ trimChars r.stdOut
     else [])

/-- Interpretation of the helper invocation in PeerManager::updateConfig
(lines after process.start): timeout is a failure; a non-zero exit whose
captured stdout or stderr contains the success marker is accepted only when
the exit code is exactly 1; any other non-zero exit fails with
`scriptFailMsg`; exit 0 succeeds. -/
def interpretScriptRun (r : ScriptRun) : MergeResult :=
  if !r.finishedInTime then .failure "Update script timed out".data
  else if r.exitCode ≠ 0 then
    if (hasSub successMarker r.stdOut || hasSub successMarker r.stdErr) && r.exitCode = 1 then
      .success
    else
      .failure (scriptFailMsg r)
  else .success

/-- Environment for one PeerManager::updateConfig call: whether each fallible
step succeeds, and the helper run observed if it is reached. -/
structure MergeEnv where
  extractScriptOk : Bool := true
  extractPolicyOk : Bool := true
  transferOk : Bool := true
  run : ScriptRun := {}
deriving DecidableEq, Repr

/-- Which temporary artifacts of PeerManager::updateConfig still exist when
the call returns: the extracted script, the extracted polkit policy, and the
peer list transfer file (a QTemporaryFile, removed by its destructor on every
return path). -/
structure TempArtifacts where
  script : Bool
  policy : Bool
  transfer : Bool
deriving DecidableEq, Repr

/-- Control flow of PeerManager::updateConfig over a MergeEnv, returning the
bool result together with the temporary artifacts left behind on return.
Extraction failures create no file; a policy extraction failure removes the
already extracted script; a transfer file creation failure returns without
removing the extracted script and policy (the early `return false` at the
`!peersFile.open()` check has no QFile::remove calls); all later paths remove
both before returning. -/
def updateConfigModel (env : MergeEnv) : Bool × TempArtifacts :=
  if !env.extractScriptOk then (false, ⟨false, false, false⟩)
  else if !env.extractPolicyOk then (false, ⟨false, false, false⟩)
  else if !env.transferOk then (false, ⟨true, true, false⟩)
  else
    match interpretScriptRun env.run with
    | .success => (true, ⟨false, false, false⟩)
    | .failure _ => (false, ⟨false, false, false⟩)

/-- Latency cell of a CSV row in PeerManager::exportPeersToCsv. -/
def latencyCell (p : PeerData) : List Char :=
  if p.latency < -1 then "Failed".data
  else if p.latency = -1 then "Not Tested".data
  else intToStr p.latency

/-- Validity cell of a CSV row in PeerManager::exportPeersToCsv: empty for an
untested peer, Valid/Invalid otherwise. -/
def validityCell (p : PeerData) : List Char :=
  if p.latency ≠ -1 then (if p.isValid then "Valid".data else "Invalid".data) else []

/-- One CSV data row: three double-quoted comma-separated fields. -/
def csvRow (p : PeerData) : List Char :=
  '"' :: p.host ++ "\",\"".data ++ latencyCell p ++ "\",\"".data ++ validityCell p ++ "\"".data

/-- The CSV header row written by PeerManager::exportPeersToCsv. -/
def csvHeader : List Char := "\"Host\",\"Latency (ms)\",\"Valid\"".data

/-- Content of the CSV file written by PeerManager::exportPeersToCsv, as the
list of its lines: the header followed by one row per peer. -/
def exportPeersToCsv (peerList : List PeerData) : List (List Char) :=
  csvHeader :: peerList.map csvRow

/-- Character class `[a-zA-Z0-9:.\-]` of the getHostname regular expression. -/
def isHostChar (c : Char) : Bool :=
  c.isAlpha || c.isDigit || c = ':' || c = '.' || c = '-'

/-- Can the regex tail `\]?:` match at this point?  Either a literal `]:`
follows (the optional bracket is consumed) or a `:` follows directly. -/
def hostTail (l : List Char) : Bool :=
  match l with
  | [] => false
  | c :: rest =>
    if c = ':' then true
    else if c = ']' then (match rest with | c2 :: _ => c2 = ':' | [] => false)
    else false

/-- Backtracking of the greedy `([a-zA-Z0-9:.\-]+)` group: try captures of
length `j, j-1, ..., 1` and keep the longest whose tail matches `\]?:`. -/
def findCapture (s : List Char) : Nat → Option (List Char)
  | 0 => none
  | j + 1 =>
    if hostTail (s.drop (j + 1)) then some (s.take (j + 1)) else findCapture s j

/-- The scheme alternation `(?:tls|tcp|quic)://` of the getHostname regex. -/
def stripScheme : List Char → Option (List Char)
  | 't' :: 'l' :: 's' :: ':' :: '/' :: '/' :: rest => some rest
  | 't' :: 'c' :: 'p' :: ':' :: '/' :: '/' :: rest => some rest
  | 'q' :: 'u' :: 'i' :: 'c' :: ':' :: '/' :: '/' :: rest => some rest
  | _ => none

/-- The optional opening bracket `\[?` (consumed when present; not consuming
it cannot help, since `[` is outside the capture class). -/
def stripBracket : List Char → List Char
  | [] => []
  | c :: r => if c = '[' then r else c :: r

/-- The part of the getHostname regex after the scheme: optional bracket,
greedy capture, `\]?:` tail. -/
def captureHost (rest : List Char) : Option (List Char) :=
  findCapture (stripBracket rest) ((stripBracket rest).takeWhile isHostChar).length

/-- One anchored attempt of the getHostname regex
`(?:tls|tcp|quic)://\[?([a-zA-Z0-9:.\-]+)\]?:` at the start of `l`,
returning the captured group on success. -/
def matchFrom (l : List Char) : Option (List Char) :=
  match stripScheme l with
  | none => none
  | some rest => captureHost rest

/-- Unanchored leftmost search of the getHostname regex over the input. -/
def scanHost : List Char → Option (List Char)
  | [] => none
  | c :: cs =>
    match matchFrom (c :: cs) with
    | some h => some h
    | none => scanHost cs

/-- PeerManager::getHostname on character lists: the captured host of the
first regex match, or the empty string when nothing matches. -/
def getHostnameL (peerUri : List Char) : List Char := (scanHost peerUri).getD []

/-- PeerManager::getHostname on Lean strings. -/
def getHostname (peerUri : String) : String := ⟨getHostnameL peerUri.data⟩

/-- The claim's scheme grammar, following the specification words (spec side
of the comparison with getHostname): the whole input is
(tls|tcp|quic)://host:port where host is a bracketed literal or a bare name
of host characters and port is a non-empty digit string. -/
def specSchemeGrammar (l : List Char) : Bool :=
  match stripScheme l with
  | none => false
  | some rest =>
    match rest with
    | '[' :: r =>
      let h := r.takeWhile (fun c => c ≠ ']')
      !h.isEmpty && h.all isHostChar &&
        (match r.drop h.length with
         | ']' :: ':' :: port => !port.isEmpty && port.all Char.isDigit
         | _ => false)
    | _ =>
      let h := rest.takeWhile (fun c => c ≠ ':')
      !h.isEmpty && h.all isHostChar &&
        (match rest.drop h.length with
         | ':' :: port => !port.isEmpty && port.all Char.isDigit
         | _ => false)

/-- Character class `[\d.]` of the ping statistics regular expression. -/
def isNumChar (c : Char) : Bool := c.isDigit || c = '.'

/-- Literal matching: strip `lit` from the front of `l` if it is there. -/
def stripLit : List Char → List Char → Option (List Char)
  | [], l => some l
  | _ :: _, [] => none
  | a :: as, b :: bs => if a = b then stripLit as bs else none

/-- Tail `[\d.]+/([\d.]+)/[\d.]+` of the ping statistics regex, after the
literal part has been consumed; returns the captured average field.  Each
`[\d.]+` is greedy, and shrinking it cannot help since the character after a
shorter run is still in the class, never `/`. -/
def statTail (l : List Char) : Option (List Char) :=
  let a := l.takeWhile isNumChar
  if a.isEmpty then none
  else
    match l.drop a.length with
    | '/' :: r2 =>
      let b := r2.takeWhile isNumChar
      if b.isEmpty then none
      else
        match r2.drop b.length with
        | '/' :: r3 => if (r3.takeWhile isNumChar).isEmpty then none else some b
        | _ => none
    | _ => none

/-- One anchored attempt of the PeerTestRunnable::run regex
`min/avg/max(?:/mdev)? = [\d.]+/([\d.]+)/[\d.]+` at the start of `l`.
The optional `/mdev` is consumed when present; skipping it cannot help since
`' '` then fails against its leading `/`. -/
def statAt (l : List Char) : Option (List Char) :=
  match stripLit "min/avg/max".data l with
  | none => none
  | some r =>
    let r2 := match stripLit "/mdev".data r with | some x => x | none => r
    match stripLit " = ".data r2 with
    | none => none
    | some r3 => statTail r3

/-- Unanchored leftmost search of the ping statistics regex: the captured
average field of the first match, if any. -/
def pingAvg : List Char → Option (List Char)
  | [] => none
  | c :: cs =>
    match statAt (c :: cs) with
    | some b => some b
    | none => pingAvg cs

/-- Numeric value of a digit string, most significant digit first. -/
def digitsVal (l : List Char) : Nat := l.foldl (fun a c => a * 10 + (c.toNat - 48)) 0

/-- QString::toDouble on a string drawn from `[\d.]+`, modelled exactly over
the rationals: an optional integer part, optionally a dot and a fraction
part, at least one digit overall; a second dot or no digit fails (ok=false). -/
def parseDec (l : List Char) : Option ℚ :=
  let ip := l.takeWhile Char.isDigit
  match l.drop ip.length with
  | [] => if ip.isEmpty then none else some (Rat.divInt (digitsVal ip) 1)
  | '.' :: frac =>
    if frac.all Char.isDigit && !(ip.isEmpty && frac.isEmpty) then
      some (Rat.divInt (digitsVal ip * 10 ^ frac.length + digitsVal frac) (10 ^ frac.length))
    else none
  | _ => none

/-- static_cast<int>(latency + 0.5) in PeerTestRunnable::run, exact over ℚ:
the value of `q + 1/2` truncated toward zero (`q` is a non-negative parsed
average, so this is round half up).  `(2 num + den) / (2 den)` in integer
T-division is exactly that truncation. -/
def roundHalf (q : ℚ) : Int := (2 * q.num + q.den) / (2 * (q.den : Int))

/-- Observable environment of one PeerTestRunnable::run execution: the shared
cancellation flag as read at entry, at each poll of the wait loop, and after
the loop; when (if ever) waitForFinished(CHECK_INTERVAL_MS) reports the ping
process finished; and the process outcome. -/
structure RunEnv where
  cancelAtStart : Bool := false
  pollCancel : Nat → Bool := fun _ => false
  finishAt : Option Nat := some 0
  cancelAfterLoop : Bool := false
  normalExit : Bool := true
  exitCode : Int := 0
  output : List Char := []

/-- How the wait loop of PeerTestRunnable::run terminates. -/
inductive LoopExit where
  | finished : LoopExit
  | cancelledMid : LoopExit
  | timedOut : LoopExit
deriving DecidableEq, Repr

/-- The wait loop of PeerTestRunnable::run: iteration `k` first polls
waitForFinished; if the process is not done it checks the cancellation flag,
then decrements timeoutRemaining by CHECK_INTERVAL_MS and times out when it
reaches zero.  `fuel` is the number of CHECK_INTERVAL_MS slices left of
PING_TIMEOUT_MS. -/
def runLoopAux (env : RunEnv) : Nat → Nat → LoopExit
  | _, 0 => .timedOut
  | k, fuel + 1 =>
    if env.finishAt = some k then .finished
    else if env.pollCancel k then .cancelledMid
    else if fuel = 0 then .timedOut
    else runLoopAux env (k + 1) fuel

/-- The wait loop entered with PING_TIMEOUT_MS / CHECK_INTERVAL_MS = 50
slices. -/
def runLoop (env : RunEnv) : LoopExit := runLoopAux env 0 50

/-- PeerTestRunnable::run as a function from its environment to the list of
peerTested emissions it performs (the peer handed back on each path).
Every path emits exactly once: cancelled before start, cancelled mid wait,
timed out, cancelled after the wait, and the result processing paths. -/
def runPeerTest (env : RunEnv) (peer : PeerData) : List PeerData :=
  if env.cancelAtStart then [peer]
  else
    match runLoop env with
    | .cancelledMid => [peer]
    | .timedOut => [peer]
    | .finished =>
      if env.cancelAfterLoop then [peer]
      else if env.normalExit && env.exitCode = 0 then
        match pingAvg env.output with
        | some cap =>
          match parseDec cap with
          | some q => [{ peer with latency := roundHalf q, isValid := true }]
          | none => [{ peer with isValid := false }]
        | none => [{ peer with isValid := false }]
      else [{ peer with isValid := false }]

/-- Events of the test scheduler: PeerManager::testPeer enqueues a runnable
on the QThreadPool; the pool starting a queued runnable; and
PeerManager::cancelTests, which sets the shared flag and calls
threadPool->clear(), purging every not-yet-started queued runnable (those
runnables are deleted and never run). -/
inductive SchedEv where
  | submit (p : PeerData) : SchedEv
  | start (env : RunEnv) : SchedEv
  | cancelAll : SchedEv

/-- Bookkeeping state of a test batch: the shared cancellation flag, the
queue of not-yet-started runnables, all peerTested emissions so far, and
counters for submitted, started and purged runnables. -/
structure SchedState where
  cancel : Bool := false
  queue : List PeerData := []
  emitted : List PeerData := []
  submitted : Nat := 0
  started : Nat := 0
  purged : Nat := 0

/-- One scheduler step.  A started runnable reads the shared flag, so its
entry check sees the flag if cancelAll already happened (or if a concurrent
cancelAll lands between start and the check, via `env.cancelAtStart`). -/
def schedStep (st : SchedState) : SchedEv → SchedState
  | .submit p => { st with queue := st.queue ++ [p], submitted := st.submitted + 1 }
  | .start env =>
    match st.queue with
    | [] => st
    | p :: rest =>
      { st with
        queue := rest
        started := st.started + 1
        emitted := st.emitted ++
          runPeerTest { env with cancelAtStart := env.cancelAtStart || st.cancel } p }
  | .cancelAll =>
    { st with cancel := true, purged := st.purged + st.queue.length, queue := [] }

/-- A whole scheduler history from the fresh state. -/
def schedRun (evs : List SchedEv) : SchedState := evs.foldl schedStep {}

/-- Opening tag part `<td[^>]*>` of the discovery regex: `<td`, then a
maximal run of non-`>` characters, then `>`; returns the rest. -/
def tdOpen (l : List Char) : Option (List Char) :=
  match l with
  | '<' :: 't' :: 'd' :: r =>
    let a := r.takeWhile (fun c => c ≠ '>')
    match r.drop a.length with
    | '>' :: rest => some rest
    | _ => none
  | _ => none

/-- One anchored attempt of the discovery regex `<td[^>]*>([^<]+)</td>`:
the capture is a maximal non-empty run of non-`<` characters and must be
followed by the literal closing tag; returns the capture and the rest of the
input after the match. -/
def tdCellAt (l : List Char) : Option (List Char × List Char) :=
  match tdOpen l with
  | none => none
  | some r =>
    let cell := r.takeWhile (fun c => c ≠ '<')
    if cell.isEmpty then none
    else
      match r.drop cell.length with
      | '<' :: '/' :: 't' :: 'd' :: '>' :: rest => some (cell, rest)
      | _ => none

/-- QRegularExpression::globalMatch of the discovery regex: collect matches
left to right, resuming after each match.  Fuel-driven for `decide`
evaluation; every step strictly shrinks the remaining input by at least one
character, so fuel = input length always suffices. -/
def tdCellsAux : Nat → List Char → List (List Char)
  | 0, _ => []
  | _ + 1, [] => []
  | fuel + 1, c :: cs =>
    match tdCellAt (c :: cs) with
    | some (cell, rest) => cell :: tdCellsAux fuel rest
    | none => tdCellsAux fuel cs

/-- All `<td>` cell captures of a response body. -/
def tdCells (l : List Char) : List (List Char) := tdCellsAux l.length l

/-- The parsing loop of PeerManager::handleNetworkResponse: each trimmed
`<td>` cell whose getHostname is non-empty becomes a fresh candidate whose
host is the full trimmed URI (latency -1, not valid). -/
def parsePeers (html : List Char) : List PeerData :=
  (tdCells html).filterMap (fun cell =>
    let uri := trimChars cell
    if getHostnameL uri = [] then none else some { host := uri })

/-- What PeerManager::handleNetworkResponse emits: a peersDiscovered list on
transport success, or an error message carrying the transport error string on
failure. -/
inductive FetchOutcome where
  | peers (l : List PeerData) : FetchOutcome
  | fetchError (msg : List Char) : FetchOutcome
deriving DecidableEq, Repr

/-- PeerManager::handleNetworkResponse over the reply: `transportError` is
`some msg` when reply->error() != NoError (msg = reply->errorString()),
otherwise the body is parsed. -/
def handleNetworkResponse (transportError : Option (List Char)) (body : List Char) :
    FetchOutcome :=
  match transportError with
  | some m => .fetchError ("Failed to fetch peers: ".data ++ m)
  | none => .peers (parsePeers body)

/-- State of PeerDiscoveryDialog relevant to result aggregation. -/
structure DialogState where
  peerList : List PeerData := []
  testedPeers : Nat := 0

/-- The update loop of PeerDiscoveryDialog::onPeerTested: walk the stored
list, overwrite latency and validity of the first entry with the result's
host, then `break`. -/
def updateFirst (l : List PeerData) (r : PeerData) : List PeerData :=
  match l with
  | [] => []
  | p :: ps =>
    if p.host = r.host then { p with latency := r.latency, isValid := r.isValid } :: ps
    else p :: updateFirst ps r

/-- PeerDiscoveryDialog::onPeerTested: increment the completed counter and
merge the result into the stored candidate list. -/
def onPeerTested (st : DialogState) (r : PeerData) : DialogState :=
  { peerList := updateFirst st.peerList r, testedPeers := st.testedPeers + 1 }

theorem sortPeers_perm (l : List PeerData) : (sortPeers l).Perm l :=
  List.perm_insertionSort peerLE l

theorem sortPeers_pairwise (l : List PeerData) : List.Pairwise peerLE (sortPeers l) :=
  List.sorted_insertionSort peerLE l

/-- C6: the comparator in PeerManager::updateConfig sorts every valid peer
before every invalid one and sorts valid peers by ascending latency; the
order among invalid peers is unconstrained (any order satisfies the
comparator).  The sorted list is a permutation of the selection. -/
theorem updateConfig_sorts_valid_first (l : List PeerData) :
    (sortPeers l).Perm l ∧
      List.Pairwise
        (fun a b => (b.isValid = true → a.isValid = true) ∧
          (a.isValid = true → b.isValid = true → a.latency ≤ b.latency))
        (sortPeers l) := by
  refine ⟨sortPeers_perm l, (sortPeers_pairwise l).imp ?_⟩
  intro a b h
  unfold peerLE peerLt at h
  by_cases ha : a.isValid <;> by_cases hb : b.isValid <;>
    simp [ha, hb] at h ⊢ <;> omega

/-- C5: if any selected peer is valid the transfer file holds exactly the
valid peers of the selection; otherwise it holds all selected peers
(exactly = as a permutation, since the list is emitted in sorted order). -/
theorem updateConfig_transfer_fallback (selected : List PeerData)
    (_hne : selected ≠ []) :
    ((∃ p ∈ selected, p.isValid = true) →
        (transferLines selected).Perm
          ((selected.filter (fun p => p.isValid)).map (fun p => p.host))) ∧
      ((∀ p ∈ selected, p.isValid = false) →
        (transferLines selected).Perm (selected.map (fun p => p.host))) := by
  constructor
  · rintro ⟨p, hp, hpv⟩
    unfold transferLines
    have hperm := sortPeers_perm selected
    have hmem : p ∈ (sortPeers selected).filter (fun p => p.isValid) := by
      rw [List.mem_filter]
      exact ⟨hperm.mem_iff.mpr hp, hpv⟩
    have hcons : ((sortPeers selected).filter (fun p => p.isValid)).isEmpty = false := by
      cases hl : (sortPeers selected).filter (fun p => p.isValid) with
      | nil => rw [hl] at hmem; simp at hmem
      | cons a as => simp
    simp only [hcons, Bool.false_eq_true, if_false]
    exact (hperm.filter (fun p => p.isValid)).map (fun p => p.host)
  · intro hall
    unfold transferLines
    have hperm := sortPeers_perm selected
    have hnil : (sortPeers selected).filter (fun p => p.isValid) = [] := by
      rw [List.filter_eq_nil_iff]
      intro a ha
      simp [hall a (hperm.mem_iff.mp ha)]
    simp only [hnil, List.isEmpty_nil, if_true]
    exact hperm.map (fun p => p.host)

/-- Witness for C5 at a concrete selection with one valid and one invalid
peer. -/
theorem updateConfig_transfer_fallback_witness :
    (transferLines [{ host := "a".data, latency := 5, isValid := true },
        { host := "b".data }]).Perm
      (([{ host := "a".data, latency := 5, isValid := true },
          ({ host := "b".data } : PeerData)].filter
          (fun p => p.isValid)).map (fun p => p.host)) :=
  (updateConfig_transfer_fallback
      [{ host := "a".data, latency := 5, isValid := true }, { host := "b".data }]
      (by decide)).1
    ⟨{ host := "a".data, latency := 5, isValid := true }, by decide, by decide⟩

/-- C2 (amended): after a timely helper finish with non-zero exit, the run is
treated as success exactly when the exit code is 1 and the captured stdout or
stderr contains the success marker; every other non-zero exit fails with the
message built from stderr, or stdout when stderr is empty. -/
theorem updateConfig_exit_interpretation (r : ScriptRun)
    (hfin : r.finishedInTime = true) (hnz : r.exitCode ≠ 0) :
    (((hasSub successMarker r.stdOut || hasSub successMarker r.stdErr) = true ∧
          r.exitCode = 1) →
        interpretScriptRun r = .success) ∧
      (¬((hasSub successMarker r.stdOut || hasSub successMarker r.stdErr) = true ∧
          r.exitCode = 1) →
        interpretScriptRun r = .failure (scriptFailMsg r)) := by
  unfold interpretScriptRun
  by_cases hm : (hasSub successMarker r.stdOut || hasSub successMarker r.stdErr) = true <;>
    by_cases h1 : r.exitCode = 1 <;>
    simp [hfin, hnz, hm, h1]

/-- Witness for C2 at exit code 1 with the marker on stdout. -/
theorem updateConfig_exit_interpretation_witness :
    interpretScriptRun { exitCode := 1, stdOut := "peers updated successfully".data }
      = MergeResult.success :=
  (updateConfig_exit_interpretation _ rfl (by decide)).1 ⟨by decide, rfl⟩

/-- C2 counterexample: a non-zero exit (code 2) whose stdout carries the
success marker is reported as a failure, not a success. -/
theorem updateConfig_exit2_marker_not_success :
    interpretScriptRun
        { exitCode := 2, stdOut := "peers updated successfully".data }
      ≠ MergeResult.success := by decide

/-- C3: evaluating PeerManager::updateConfig on the path where both resource
extractions succeed and the transfer file creation fails shows the call
returning false while leaving both the extracted script and the extracted
policy file behind, contradicting the claimed (and self-documented) cleanup
on every return path. -/
theorem updateConfig_cleanup_leak :
    updateConfigModel { transferOk := false }
      = (false, ⟨true, true, false⟩) := by decide

theorem digitChar_isDigit (n : Nat) (h : n < 10) : (Nat.digitChar n).isDigit = true := by
  interval_cases n <;> decide

theorem natToStrAux_digits (fuel : Nat) :
    ∀ n c, c ∈ natToStrAux fuel n → c.isDigit = true := by
  induction fuel with
  | zero => intro n c hc; simp [natToStrAux] at hc
  | succ fuel ih =>
    intro n c hc
    unfold natToStrAux at hc
    by_cases h : n < 10
    · simp [h] at hc
      subst hc
      exact digitChar_isDigit n h
    · simp [h] at hc
      rcases hc with hc | hc
      · exact ih _ c hc
      · subst hc
        exact digitChar_isDigit _ (Nat.mod_lt _ (by norm_num))

theorem natToStr_digits (n : Nat) : ∀ c ∈ natToStr n, c.isDigit = true :=
  fun c hc => natToStrAux_digits (n + 1) n c hc

theorem natToStr_ne_notTested (n : Nat) : natToStr n ≠ "Not Tested".data := by
  intro h
  have hmem : 'N' ∈ natToStr n := by rw [h]; decide
  have := natToStr_digits n 'N' hmem
  exact absurd this (by decide)

theorem natToStr_ne_failed (n : Nat) : natToStr n ≠ "Failed".data := by
  intro h
  have hmem : 'F' ∈ natToStr n := by rw [h]; decide
  have := natToStr_digits n 'F' hmem
  exact absurd this (by decide)

/-- C7: the CSV export writes the exact header, one three-field quoted row
per peer in order, a latency cell that says Not Tested exactly for the -1
sentinel and Failed exactly for lower sentinels (the numeric latency
otherwise), and a validity cell that is empty exactly for untested peers and
a Valid/Invalid verdict otherwise. -/
theorem exportPeersToCsv_format (peerList : List PeerData) (p : PeerData) :
    exportPeersToCsv peerList = csvHeader :: peerList.map csvRow ∧
      (exportPeersToCsv peerList).length = peerList.length + 1 ∧
      csvRow p = '"' :: p.host ++ "\",\"".data ++ latencyCell p ++ "\",\"".data ++
        validityCell p ++ "\"".data ∧
      (latencyCell p = "Not Tested".data ↔ p.latency = -1) ∧
      (latencyCell p = "Failed".data ↔ p.latency < -1) ∧
      (0 ≤ p.latency → latencyCell p = natToStr p.latency.toNat) ∧
      (validityCell p = [] ↔ p.latency = -1) ∧
      (p.latency ≠ -1 →
        validityCell p = (if p.isValid then "Valid".data else "Invalid".data)) := by
  refine ⟨rfl, by simp [exportPeersToCsv], rfl, ?_, ?_, ?_, ?_, ?_⟩
  · constructor
    · intro h
      unfold latencyCell at h
      by_cases h1 : p.latency < -1
      · rw [if_pos h1] at h; exact absurd h (by decide)
      · rw [if_neg h1] at h
        by_cases h2 : p.latency = -1
        · exact h2
        · rw [if_neg h2] at h
          have h3 : 0 ≤ p.latency := by omega
          rw [intToStr, if_neg (by omega)] at h
          exact absurd h (natToStr_ne_notTested _)
    · intro h
      unfold latencyCell
      rw [if_neg (by omega), if_pos h]
  · constructor
    · intro h
      unfold latencyCell at h
      by_cases h1 : p.latency < -1
      · exact h1
      · rw [if_neg h1] at h
        by_cases h2 : p.latency = -1
        · rw [if_pos h2] at h; exact absurd h (by decide)
        · rw [if_neg h2] at h
          rw [intToStr, if_neg (by omega)] at h
          exact absurd h (natToStr_ne_failed _)
    · intro h
      unfold latencyCell
      rw [if_pos h]
  · intro h
    unfold latencyCell
    rw [if_neg (by omega), if_neg (by omega), intToStr, if_neg (by omega)]
  · constructor
    · intro h
      unfold validityCell at h
      by_cases h2 : p.latency ≠ -1
      · rw [if_pos h2] at h
        by_cases hv : p.isValid <;> simp [hv] at h
      · omega
    · intro h
      unfold validityCell
      rw [if_neg (by omega)]
  · intro h
    unfold validityCell
    rw [if_pos h]

/-- Witness for C7 at a tested valid peer with latency 10 and an untested
peer. -/
theorem exportPeersToCsv_format_witness :
    latencyCell { host := "peer1".data, latency := 10, isValid := true } = natToStr 10 ∧
      validityCell { host := "peer2".data } = [] :=
  ⟨(exportPeersToCsv_format [] { host := "peer1".data, latency := 10, isValid := true
      }).2.2.2.2.2.1 (by decide),
    (exportPeersToCsv_format [] { host := "peer2".data }).2.2.2.2.2.2.1.mpr rfl⟩

theorem updateFirst_no_match (l : List PeerData) (r : PeerData)
    (h : ∀ p ∈ l, p.host ≠ r.host) : updateFirst l r = l := by
  induction l with
  | nil => rfl
  | cons p ps ih =>
    unfold updateFirst
    rw [if_neg (h p (by simp))]
    rw [ih (fun q hq => h q (by simp [hq]))]

theorem updateFirst_first_match (l : List PeerData) (r : PeerData) :
    ∀ (k : Nat) (p : PeerData), l[k]? = some p → p.host = r.host →
      (∀ (j : Nat) (q : PeerData), j < k → l[j]? = some q → q.host ≠ r.host) →
      (updateFirst l r)[k]? =
          some { host := p.host, latency := r.latency, isValid := r.isValid } ∧
        ∀ j, j ≠ k → (updateFirst l r)[j]? = l[j]? := by
  induction l with
  | nil => intro k p hk; simp at hk
  | cons q qs ih =>
    intro k p hk hmatch hfirst
    by_cases hq : q.host = r.host
    · have hk0 : k = 0 := by
        by_contra hne
        obtain ⟨k2, rfl⟩ : ∃ k2, k = k2 + 1 := ⟨k - 1, by omega⟩
        exact hfirst 0 q (by omega) (by simp) hq
      subst hk0
      simp at hk
      subst hk
      unfold updateFirst
      rw [if_pos hq]
      refine ⟨by simp, ?_⟩
      intro j hj
      obtain ⟨j2, rfl⟩ : ∃ j2, j = j2 + 1 := ⟨j - 1, by omega⟩
      simp
    · have hk0 : k ≠ 0 := by
        intro h0
        subst h0
        simp at hk
        subst hk
        exact hq hmatch
      obtain ⟨k2, rfl⟩ : ∃ k2, k = k2 + 1 := ⟨k - 1, by omega⟩
      simp at hk
      unfold updateFirst
      rw [if_neg hq]
      have hrec := ih k2 p hk hmatch
        (fun j qq hj hjq => hfirst (j + 1) qq (by omega) (by simpa using hjq))
      refine ⟨by simpa using hrec.1, ?_⟩
      intro j hj
      cases j with
      | zero => simp
      | succ j2 => simpa using hrec.2 j2 (by omega)

/-- C10: each delivered result bumps the completed counter by exactly one and
rewrites latency and validity of only the first stored candidate with the
matching host; every other entry (including later duplicates of the same
host) and the whole list when nothing matches are left unchanged. -/
theorem onPeerTested_frame (st : DialogState) (r : PeerData) :
    (onPeerTested st r).testedPeers = st.testedPeers + 1 ∧
      ((∀ p ∈ st.peerList, p.host ≠ r.host) →
        (onPeerTested st r).peerList = st.peerList) ∧
      (∀ (k : Nat) (p : PeerData), st.peerList[k]? = some p → p.host = r.host →
        (∀ (j : Nat) (q : PeerData), j < k → st.peerList[j]? = some q → q.host ≠ r.host) →
        (onPeerTested st r).peerList[k]? =
            some { host := p.host, latency := r.latency, isValid := r.isValid } ∧
          ∀ j, j ≠ k → (onPeerTested st r).peerList[j]? = st.peerList[j]?) :=
  ⟨rfl, fun h => updateFirst_no_match st.peerList r h,
    fun k p hk hm hf => updateFirst_first_match st.peerList r k p hk hm hf⟩

/-- Witness for C10: a result matching two duplicate entries updates index 0
and leaves the duplicate at index 1 untouched. -/
theorem onPeerTested_frame_witness :
    (onPeerTested { peerList := [{ host := "a".data }, { host := "a".data }] }
          { host := "a".data, latency := 7, isValid := true }).peerList[1]?
      = ([{ host := "a".data }, ({ host := "a".data } : PeerData)])[1]? :=
  ((onPeerTested_frame { peerList := [{ host := "a".data }, { host := "a".data }] }
        { host := "a".data, latency := 7, isValid := true }).2.2 0
      { host := "a".data } (by decide) rfl
      (fun j q hj _ => absurd hj (Nat.not_lt_zero j))).2 1 (by omega)

theorem runPeerTest_length (env : RunEnv) (peer : PeerData) :
    (runPeerTest env peer).length = 1 := by
  unfold runPeerTest
  by_cases h1 : env.cancelAtStart
  · simp [h1]
  · simp only [h1, Bool.false_eq_true, if_false]
    cases runLoop env with
    | cancelledMid => simp
    | timedOut => simp
    | finished =>
      by_cases h2 : env.cancelAfterLoop
      · simp [h2]
      · simp only [h2, Bool.false_eq_true, if_false]
        by_cases h3 : (env.normalExit && env.exitCode = 0) = true
        · simp only [h3, if_true]
          rcases hp : pingAvg env.output with _ | cap
          · simp
          · rcases hq : parseDec cap with _ | q <;> simp [hq]
        · simp [h3]

/-- C1 (amended): in every scheduler history, each started runnable emits
exactly one result (the emission count equals the started count), and the
submitted count splits into started plus purged plus still queued runnables;
after cancelAll purges queued runnables the emission count therefore need
not reach the submitted count. -/
theorem schedRun_accounting (evs : List SchedEv) :
    (schedRun evs).emitted.length = (schedRun evs).started ∧
      (schedRun evs).submitted =
        (schedRun evs).started + (schedRun evs).purged + (schedRun evs).queue.length := by
  suffices h : ∀ (l : List SchedEv) (st : SchedState),
      st.emitted.length = st.started →
      st.submitted = st.started + st.purged + st.queue.length →
      (l.foldl schedStep st).emitted.length = (l.foldl schedStep st).started ∧
        (l.foldl schedStep st).submitted =
          (l.foldl schedStep st).started + (l.foldl schedStep st).purged +
            (l.foldl schedStep st).queue.length by
    exact h evs {} rfl rfl
  intro l
  induction l with
  | nil => intro st h1 h2; exact ⟨h1, h2⟩
  | cons e rest ih =>
    intro st h1 h2
    apply ih
    · cases e with
      | submit p => simpa [schedStep]
      | start env =>
        rcases hq : st.queue with _ | ⟨p, ps⟩ <;>
          simp [schedStep, hq, runPeerTest_length, h1]
      | cancelAll => simpa [schedStep]
    · cases e with
      | submit p => simp [schedStep]; omega
      | start env =>
        rcases hq : st.queue with _ | ⟨p, ps⟩ <;> rw [hq] at h2 <;>
          simp [schedStep, hq] <;> simp at h2 <;> omega
      | cancelAll => simp [schedStep]; omega

/-- C1 counterexample: one candidate is submitted, then cancelAll purges the
not yet started queue; the batch is fully drained (empty queue), the purge is
recorded, yet no result was ever emitted for the submitted candidate, so the
completed count (0) never reaches the submitted count (1). -/
theorem schedRun_cancel_purge_counterexample :
    (schedRun [SchedEv.submit { host := "tls://a:1".data }, SchedEv.cancelAll]).submitted = 1 ∧
      (schedRun [SchedEv.submit { host := "tls://a:1".data }, SchedEv.cancelAll]).queue = [] ∧
      (schedRun [SchedEv.submit { host := "tls://a:1".data }, SchedEv.cancelAll]).emitted = [] ∧
      (schedRun [SchedEv.submit { host := "tls://a:1".data }, SchedEv.cancelAll]).purged = 1 := by
  refine ⟨rfl, rfl, rfl, rfl⟩

/-- C8: when the ping output of a normally exited (exit 0) process contains a
round-trip statistics line, the emitted candidate is valid with the rounded
average latency; on no statistics match, an unparseable average, an abnormal
or non-zero exit, or a timeout (which spawn failure also reaches, since
waitForFinished never reports a finish), the candidate is emitted not valid
with latency -1, and no path raises an error: every branch returns exactly
the single emitted result. -/
theorem runPeerTest_result (env : RunEnv) (peer : PeerData)
    (hl : peer.latency = -1) (hv : peer.isValid = false)
    (hstart : env.cancelAtStart = false) (hafter : env.cancelAfterLoop = false) :
    (runLoop env = .timedOut →
      runPeerTest env peer = [{ host := peer.host, latency := -1, isValid := false }]) ∧
    (runLoop env = .finished →
      ((env.normalExit && env.exitCode = 0) = true →
        (∀ (cap : List Char) (q : ℚ), pingAvg env.output = some cap → parseDec cap = some q →
          runPeerTest env peer
            = [{ host := peer.host, latency := roundHalf q, isValid := true }]) ∧
        (pingAvg env.output = none →
          runPeerTest env peer
            = [{ host := peer.host, latency := -1, isValid := false }]) ∧
        (∀ cap : List Char, pingAvg env.output = some cap → parseDec cap = none →
          runPeerTest env peer
            = [{ host := peer.host, latency := -1, isValid := false }])) ∧
      ((env.normalExit && env.exitCode = 0) = false →
        runPeerTest env peer
          = [{ host := peer.host, latency := -1, isValid := false }])) := by
  obtain ⟨h, lat, val⟩ := peer
  simp only at hl hv
  subst hl
  subst hv
  constructor
  · intro hloop
    unfold runPeerTest
    simp [hstart, hloop]
  · intro hloop
    constructor
    · intro hexit
      refine ⟨?_, ?_, ?_⟩
      · intro cap q hcap hq
        unfold runPeerTest
        simp [hstart, hloop, hafter, hexit, hcap, hq]
      · intro hcap
        unfold runPeerTest
        simp [hstart, hloop, hafter, hexit, hcap]
      · intro cap hcap hq
        unfold runPeerTest
        simp [hstart, hloop, hafter, hexit, hcap, hq]
    · intro hexit
      unfold runPeerTest
      simp [hstart, hloop, hafter, hexit]

/-- Witness for C8 on a concrete successful ping transcript. -/
theorem runPeerTest_result_witness :
    runPeerTest { output := "rtt min/avg/max/mdev = 10.1/15.5/20.0/3.2 ms".data }
        { host := "h".data }
      = [{ host := "h".data, latency := roundHalf (Rat.divInt 31 2), isValid := true }] :=
  (((runPeerTest_result
          { output := "rtt min/avg/max/mdev = 10.1/15.5/20.0/3.2 ms".data }
          { host := "h".data } rfl rfl rfl rfl).2 (by decide)).1 rfl).1
    "15.5".data (Rat.divInt 31 2) (by decide) (by decide)

/-- C9: a transport failure is surfaced as an error event carrying the
transport message (and is a different outcome constructor from any peer
list), while a successful response is always a peersDiscovered event; a
successful body in which no cell yields a hostname produces the empty
candidate list rather than an error. -/
theorem handleNetworkResponse_outcomes (err body : List Char) :
    handleNetworkResponse (some err) body
        = .fetchError ("Failed to fetch peers: ".data ++ err) ∧
      handleNetworkResponse none body = .peers (parsePeers body) ∧
      ((∀ cell ∈ tdCells body, getHostnameL (trimChars cell) = []) →
        handleNetworkResponse none body = .peers []) ∧
      (∀ l : List PeerData,
        FetchOutcome.fetchError ("Failed to fetch peers: ".data ++ err) ≠ .peers l) := by
  refine ⟨rfl, rfl, ?_, fun l h => by cases h⟩
  intro h
  have hnil : parsePeers body = [] := by
    unfold parsePeers
    rw [List.filterMap_eq_nil_iff]
    intro cell hc
    simp [h cell hc]
  simp [handleNetworkResponse, hnil]

/-- Witness for C9: a reachable body whose only cell is not a peer URI
yields an empty, successful candidate list. -/
theorem handleNetworkResponse_outcomes_witness :
    handleNetworkResponse none "<td>hello</td>".data = FetchOutcome.peers [] :=
  (handleNetworkResponse_outcomes [] "<td>hello</td>".data).2.2.1 (by decide)

theorem takeWhile_all (p : Char → Bool) (l : List Char)
    (h : ∀ c ∈ l, p c = true) : l.takeWhile p = l := by
  induction l with
  | nil => rfl
  | cons a as ih =>
    rw [List.takeWhile_cons, if_pos (h a (by simp))]
    rw [ih (fun c hc => h c (by simp [hc]))]

theorem takeWhile_append_all (p : Char → Bool) (xs rs : List Char)
    (h : ∀ c ∈ xs, p c = true) :
    (xs ++ rs).takeWhile p = xs ++ rs.takeWhile p := by
  induction xs with
  | nil => simp
  | cons a as ih =>
    rw [List.cons_append, List.takeWhile_cons, if_pos (h a (by simp))]
    rw [ih (fun c hc => h c (by simp [hc])), List.cons_append]

theorem hostTail_false_of_head (c : Char) (cs : List Char)
    (h1 : c ≠ ':') (h2 : c ≠ ']') : hostTail (c :: cs) = false := by
  simp [hostTail, h1, h2]

theorem findCapture_exact (s : List Char) (t : Nat) (h1 : 1 ≤ t)
    (hT : hostTail (s.drop t) = true) :
    ∀ j, t ≤ j → (∀ u, t < u → u ≤ j → hostTail (s.drop u) = false) →
      findCapture s j = some (s.take t) := by
  intro j
  induction j with
  | zero => intro h0 _; omega
  | succ j ih =>
    intro hle hfail
    by_cases he : t = j + 1
    · subst he
      unfold findCapture
      rw [if_pos hT]
    · have hlt : t ≤ j := by omega
      unfold findCapture
      rw [if_neg (by simp [hfail (j + 1) (by omega) (le_refl _)])]
      exact ih hlt (fun u hu1 hu2 => hfail u hu1 (by omega))

theorem isHostChar_of_digit (c : Char) (h : c.isDigit = true) : isHostChar c = true := by
  simp [isHostChar, h]

theorem digit_ne_colon (c : Char) (h : c.isDigit = true) : c ≠ ':' := by
  intro he
  subst he
  exact absurd h (by decide)

theorem digit_ne_rbracket (c : Char) (h : c.isDigit = true) : c ≠ ']' := by
  intro he
  subst he
  exact absurd h (by decide)

theorem hostChar_ne_lbracket (c : Char) (h : isHostChar c = true) : c ≠ '[' := by
  intro he
  subst he
  exact absurd h (by decide)

theorem captureHost_bracketed (host tail2 : List Char) (hne : host ≠ [])
    (hcls : ∀ c ∈ host, isHostChar c = true) :
    captureHost ('[' :: host ++ ']' :: ':' :: tail2) = some host := by
  unfold captureHost
  have hsb : stripBracket ('[' :: host ++ ']' :: ':' :: tail2)
      = host ++ ']' :: ':' :: tail2 := by
    simp [stripBracket]
  rw [hsb]
  have htw : (host ++ ']' :: ':' :: tail2).takeWhile isHostChar = host := by
    rw [takeWhile_append_all _ _ _ hcls, List.takeWhile_cons, if_neg (by decide)]
    simp
  rw [htw]
  have hlen : 1 ≤ host.length := by
    cases host with
    | nil => exact absurd rfl hne
    | cons a as => simp
  have hdrop : (host ++ ']' :: ':' :: tail2).drop host.length = ']' :: ':' :: tail2 :=
    List.drop_left _ _
  have hT : hostTail ((host ++ ']' :: ':' :: tail2).drop host.length) = true := by
    rw [hdrop]
    simp [hostTail]
  rw [findCapture_exact _ host.length hlen hT host.length (le_refl _)
      (fun u hu1 hu2 => absurd (lt_of_lt_of_le hu1 hu2) (lt_irrefl _))]
  rw [List.take_left]

theorem captureHost_plain (host tail2 : List Char) (hne : host ≠ [])
    (hcls : ∀ c ∈ host, isHostChar c = true)
    (hdig : ∀ c ∈ tail2, c.isDigit = true) :
    captureHost (host ++ ':' :: tail2) = some host := by
  unfold captureHost
  have hsb : stripBracket (host ++ ':' :: tail2) = host ++ ':' :: tail2 := by
    cases host with
    | nil => exact absurd rfl hne
    | cons a as =>
      have := hostChar_ne_lbracket a (hcls a (by simp))
      simp [stripBracket, this]
  rw [hsb]
  have hall : ∀ c ∈ host ++ ':' :: tail2, isHostChar c = true := by
    intro c hc
    rcases List.mem_append.mp hc with hc | hc
    · exact hcls c hc
    · rcases List.mem_cons.mp hc with rfl | hc
      · decide
      · exact isHostChar_of_digit c (hdig c hc)
  rw [takeWhile_all _ _ hall]
  have hlen1 : 1 ≤ host.length := by
    cases host with
    | nil => exact absurd rfl hne
    | cons a as => simp
  have hdrop : (host ++ ':' :: tail2).drop host.length = ':' :: tail2 :=
    List.drop_left _ _
  have hT : hostTail ((host ++ ':' :: tail2).drop host.length) = true := by
    rw [hdrop]
    simp [hostTail]
  have hfail : ∀ u, host.length < u → u ≤ (host ++ ':' :: tail2).length →
      hostTail ((host ++ ':' :: tail2).drop u) = false := by
    intro u hu1 hu2
    obtain ⟨d, hd⟩ : ∃ d, u = host.length + (d + 1) := ⟨u - host.length - 1, by omega⟩
    subst hd
    rw [← List.drop_drop, hdrop, List.drop_succ_cons]
    cases hrem : tail2.drop d with
    | nil => rfl
    | cons c cs =>
      have hc : c ∈ tail2 :=
        List.mem_of_mem_drop (hrem ▸ List.mem_cons_self c cs)
      exact hostTail_false_of_head c cs (digit_ne_colon c (hdig c hc))
        (digit_ne_rbracket c (hdig c hc))
  rw [findCapture_exact _ host.length hlen1 hT ((host ++ ':' :: tail2).length)
      (by simp) hfail]
  rw [List.take_left]

theorem getHostnameL_cons_match (c : Char) (cs h : List Char)
    (hm : matchFrom (c :: cs) = some h) : getHostnameL (c :: cs) = h := by
  unfold getHostnameL
  rw [show scanHost (c :: cs) = some h from by simp [scanHost, hm]]
  rfl

theorem matchFrom_scheme (scheme rest : List Char)
    (hs : scheme = "tls".data ∨ scheme = "tcp".data ∨ scheme = "quic".data) :
    matchFrom (scheme ++ "://".data ++ rest) = captureHost rest := by
  rcases hs with rfl | rfl | rfl <;> rfl

/-- C4 (amended): getHostname returns the bare host, brackets stripped, for
every URI of the (tls|tcp|quic)://host:port form, bracketed or plain; it
returns the empty string only for inputs that contain no substring matching
the unanchored regex, and an input that merely embeds such a substring gets
that substring's host rather than the empty string. -/
theorem getHostname_wellformed (scheme host port : List Char)
    (hs : scheme = "tls".data ∨ scheme = "tcp".data ∨ scheme = "quic".data)
    (hne : host ≠ []) (hcls : ∀ c ∈ host, isHostChar c = true)
    (hport : ∀ c ∈ port, c.isDigit = true) :
    getHostnameL (scheme ++ "://".data ++ '[' :: host ++ ']' :: ':' :: port) = host ∧
      getHostnameL (scheme ++ "://".data ++ host ++ ':' :: port) = host := by
  have hb : matchFrom (scheme ++ "://".data ++ ('[' :: host ++ ']' :: ':' :: port))
      = some host :=
    (matchFrom_scheme scheme _ hs).trans (captureHost_bracketed host port hne hcls)
  have hp : matchFrom (scheme ++ "://".data ++ (host ++ ':' :: port)) = some host :=
    (matchFrom_scheme scheme _ hs).trans (captureHost_plain host port hne hcls hport)
  rcases hs with rfl | rfl | rfl
  · exact ⟨getHostnameL_cons_match _ _ _ hb, getHostnameL_cons_match _ _ _ hp⟩
  · exact ⟨getHostnameL_cons_match _ _ _ hb, getHostnameL_cons_match _ _ _ hp⟩
  · exact ⟨getHostnameL_cons_match _ _ _ hb, getHostnameL_cons_match _ _ _ hp⟩

/-- Witness for C4 on the specification's own example URI and on a plain
DNS-name URI. -/
theorem getHostname_wellformed_witness :
    getHostnameL ("tls".data ++ "://".data ++ '[' :: "2001:db8::1".data ++ ']' :: ':'
        :: "1234".data) = "2001:db8::1".data ∧
      getHostnameL ("quic".data ++ "://".data ++ "example.com".data ++ ':'
        :: "1234".data) = "example.com".data :=
  ⟨(getHostname_wellformed "tls".data "2001:db8::1".data "1234".data (Or.inl rfl)
      (by decide) (by decide) (by decide)).1,
    (getHostname_wellformed "quic".data "example.com".data "1234".data
      (Or.inr (Or.inr rfl)) (by decide) (by decide) (by decide)).2⟩

/-- C4 counterexample: the regex search is unanchored, so the malformed
input xtls://a:1 — which does not satisfy the claim's scheme grammar —
still yields the embedded host instead of the required empty string. -/
theorem getHostname_unanchored_counterexample :
    specSchemeGrammar "xtls://a:1".data = false ∧
      getHostname "xtls://a:1" = "a" ∧ getHostname "xtls://a:1" ≠ "" := by
  exact ⟨by decide, by decide, by decide⟩
